import Mathlib

/-!
Verification of the ADAPT-VQE core of the Tangelo/qSDK repository.

Shallow embedding of:
  - `ADAPTSolver.__init__` (option-dictionary merging and validation),
  - `ADAPTSolver.rank_pool` (gradient ranking of the operator pool),
  - `ADAPTSolver.simulate` (the outer ADAPT growth loop),
  - `UCCSD.set_var_params`, `UCCSD.build_circuit`, `UCCSD.update_var_params`
    (parameter handling and the fast in-place circuit-update path).

Machine floats of the source are modelled by exact rationals; external
collaborators (expectation backend, the scipy optimizer, the fermion-to-qubit
mapping) are modelled as abstract functions, matching the collaborator
contracts given by the spec.
-/

namespace Qsdk

/-- A Python value as it appears in the option dictionaries of
`ADAPTSolver.__init__`: `None`, booleans, numbers, strings, or an opaque
object (molecule, Hamiltonian, optimizer callable...). -/
inductive PyVal where
  | none : PyVal
  | bool (b : Bool) : PyVal
  | num (q : ℚ) : PyVal
  | str (s : String) : PyVal
  | obj (name : String) : PyVal
deriving DecidableEq

/-- Python truthiness `bool(x)` for the values we model: `None` is falsy,
booleans are themselves, numbers are truthy iff nonzero, strings iff
non-empty, opaque objects are truthy. -/
def PyVal.truthy : PyVal → Bool
  | .none => false
  | .bool b => b
  | .num q => q != 0
  | .str s => s != ""
  | .obj _ => true

/-- A Python dict modelled as an association list: key insertion
overwrites the value of an existing key in place. -/
def dinsert (k : String) (v : PyVal) : List (String × PyVal) → List (String × PyVal)
  | [] => [(k, v)]
  | (k', v') :: tl => if k' = k then (k, v) :: tl else (k', v') :: dinsert k v tl

/-- The entries of the `default_options` dict literal of
`ADAPTSolver.__init__`, in source order.  Note the `"verbose"` key appears
twice in the literal (`False` first, `True` last), exactly as in the source. -/
def defaultOptionEntries : List (String × PyVal) :=
  [("molecule", .none), ("mean_field", .none), ("verbose", .bool false),
   ("tol", .num (1/1000)), ("max_cycles", .num 15),
   ("qubit_mapping", .str "jw"),
   ("ansatz", .obj "ADAPTAnsatze.UCCGSD"),
   ("frozen_orbitals", .str "frozen_core"),
   ("qubit_hamiltonian", .none),
   ("n_spinorbitals", .none),
   ("n_electrons", .none),
   ("optimizer", .obj "LBFGSB_optimizer"),
   ("backend_options", .obj "default_backend_options"),
   ("up_then_down", .bool false),
   ("verbose", .bool true)]

/-- The `default_options` dict of `ADAPTSolver.__init__`, as Python builds it:
the literal's entries inserted left to right, a later duplicate key
overwriting the earlier one. -/
def default_options : List (String × PyVal) :=
  defaultOptionEntries.foldl (fun d kv => dinsert kv.1 kv.2 d) []

/-- Errors raised by the modelled Python code. -/
inductive PyErr where
  | keyError (k : String) : PyErr
  | valueError : PyErr
deriving DecidableEq

instance instDecEqExcept {ε α : Type} [DecidableEq ε] [DecidableEq α] :
    DecidableEq (Except ε α) := fun a b =>
  match a, b with
  | .error e, .error e' =>
      if h : e = e' then isTrue (by rw [h])
      else isFalse (fun hc => h (by injection hc))
  | .error e, .ok x => isFalse (fun hc => Except.noConfusion hc)
  | .ok x, .error e => isFalse (fun hc => Except.noConfusion hc)
  | .ok x, .ok x' =>
      if h : x = x' then isTrue (by rw [h])
      else isFalse (fun hc => h (by injection hc))

/-- The `for k, v in opt_dict.items()` loop of `ADAPTSolver.__init__`:
each user key is checked for membership in `default_options`; an unknown key
raises `KeyError` immediately, a known key overwrites the attribute. -/
def setOpts : List (String × PyVal) → List (String × PyVal) →
    Except PyErr (List (String × PyVal))
  | d, [] => .ok d
  | d, (k, v) :: rest =>
      if (List.lookup k default_options).isSome then setOpts (dinsert k v d) rest
      else .error (.keyError k)

/-- Model of `ADAPTSolver.__init__`: start from `default_options`, overwrite with the
user `opt_dict` (unknown key raises `KeyError`), then require exactly one of
`molecule` and `qubit_hamiltonian` to be truthy, else raise `ValueError`.
The returned dict models the resulting attribute dictionary of the solver. -/
def adaptInit (opt_dict : List (String × PyVal)) :
    Except PyErr (List (String × PyVal)) :=
  match setOpts default_options opt_dict with
  | .error e => .error e
  | .ok d =>
      let mol := (List.lookup "molecule" d).getD .none
      let qh := (List.lookup "qubit_hamiltonian" d).getD .none
      if Bool.xor mol.truthy qh.truthy then .ok d else .error .valueError

/-- The merged dictionary when every user key is recognized. -/
def mergeOpts (opt_dict : List (String × PyVal)) : List (String × PyVal) :=
  opt_dict.foldl (fun d kv => dinsert kv.1 kv.2 d) default_options

/-- The construction-time validity condition on the merged options: exactly
one of `molecule` and `qubit_hamiltonian` truthy. -/
def xorCond (d : List (String × PyVal)) : Bool :=
  Bool.xor ((List.lookup "molecule" d).getD .none).truthy
    ((List.lookup "qubit_hamiltonian" d).getD .none).truthy

theorem dinsert_lookup_self (k : String) (v : PyVal) :
    ∀ d, List.lookup k (dinsert k v d) = some v := by
  intro d
  induction d with
  | nil => simp [dinsert, List.lookup]
  | cons hd tl ih =>
      obtain ⟨k', v'⟩ := hd
      by_cases h : k' = k
      · simp [dinsert, h, List.lookup]
      · have hk : (k == k') = false := by
          simp only [beq_eq_false_iff_ne, ne_eq]
          exact fun hc => h hc.symm
        simp [dinsert, h, List.lookup, hk, ih]

theorem dinsert_lookup_ne (k k' : String) (v : PyVal) (hne : k' ≠ k) :
    ∀ d, List.lookup k (dinsert k' v d) = List.lookup k d := by
  intro d
  have hkk : (k == k') = false := by
    simp only [beq_eq_false_iff_ne, ne_eq]
    exact fun hc => hne hc.symm
  induction d with
  | nil => simp [dinsert, List.lookup, hkk]
  | cons hd tl ih =>
      obtain ⟨k₀, v₀⟩ := hd
      by_cases h : k₀ = k'
      · subst h
        simp [dinsert, List.lookup, hkk]
      · by_cases hk : k = k₀
        · subst hk
          simp [dinsert, h, List.lookup]
        · have hk0 : (k == k₀) = false := by
            simp only [beq_eq_false_iff_ne, ne_eq]
            exact hk
          simp [dinsert, h, List.lookup, hk0, ih]

theorem setOpts_lookup_notMentioned (k : String) :
    ∀ (opts d : List (String × PyVal)), k ∉ opts.map Prod.fst →
      ∀ d', setOpts d opts = .ok d' →
        List.lookup k d' = List.lookup k d := by
  intro opts
  induction opts with
  | nil =>
      intro d _ d' h
      simp [setOpts] at h
      subst h; rfl
  | cons hd tl ih =>
      intro d hk d' h
      obtain ⟨k₀, v₀⟩ := hd
      simp only [List.map_cons, List.mem_cons] at hk
      push_neg at hk
      simp only [setOpts] at h
      by_cases hs : (List.lookup k₀ default_options).isSome
      · rw [if_pos hs] at h
        have := ih (dinsert k₀ v₀ d) hk.2 d' h
        rw [this, dinsert_lookup_ne k k₀ v₀ (fun hc => hk.1 hc.symm)]
      · rw [if_neg hs] at h
        exact absurd h (by simp)

theorem setOpts_ok_of_known :
    ∀ (opts d : List (String × PyVal)),
      (∀ k ∈ opts.map Prod.fst, (List.lookup k default_options).isSome) →
      setOpts d opts = .ok (opts.foldl (fun d kv => dinsert kv.1 kv.2 d) d) := by
  intro opts
  induction opts with
  | nil => intro d _; simp [setOpts]
  | cons hd tl ih =>
      intro d hk
      obtain ⟨k₀, v₀⟩ := hd
      have h₀ : (List.lookup k₀ default_options).isSome := hk k₀ (by simp)
      simp only [setOpts, if_pos h₀, List.foldl_cons]
      exact ih (dinsert k₀ v₀ d) (fun k hmem => hk k (by simp [hmem]))

theorem setOpts_err_of_unknown :
    ∀ (opts d : List (String × PyVal)),
      (∃ k ∈ opts.map Prod.fst, List.lookup k default_options = Option.none) →
      ∃ k, setOpts d opts = .error (.keyError k) ∧ k ∈ opts.map Prod.fst ∧
        List.lookup k default_options = Option.none := by
  intro opts
  induction opts with
  | nil => intro d h; simp at h
  | cons hd tl ih =>
      intro d h
      obtain ⟨k₀, v₀⟩ := hd
      by_cases h₀ : (List.lookup k₀ default_options).isSome
      · obtain ⟨k, hkmem, hknone⟩ := h
        simp only [List.map_cons, List.mem_cons] at hkmem
        have hktl : k ∈ tl.map Prod.fst := by
          rcases hkmem with hkh | hkt
          · exfalso; rw [hkh] at hknone; rw [hknone] at h₀; simp at h₀
          · exact hkt
        obtain ⟨k', hrun, hmem', hnone'⟩ := ih (dinsert k₀ v₀ d) ⟨k, hktl, hknone⟩
        refine ⟨k', ?_, by simp [hmem'], hnone'⟩
        simp only [setOpts, if_pos h₀]
        exact hrun
      · refine ⟨k₀, ?_, by simp, ?_⟩
        · simp only [setOpts, if_neg h₀]
        · cases hlk : List.lookup k₀ default_options with
          | none => rfl
          | some v => rw [hlk] at h₀; simp at h₀

theorem setOpts_lookup_of_mem (k : String) (v : PyVal) :
    ∀ (opts d d' : List (String × PyVal)), (k, v) ∈ opts →
      (opts.map Prod.fst).Nodup → setOpts d opts = .ok d' →
      List.lookup k d' = some v := by
  intro opts
  induction opts with
  | nil => intro d d' h; simp at h
  | cons hd tl ih =>
      intro d d' hmem hnd hrun
      obtain ⟨k₀, v₀⟩ := hd
      simp only [List.map_cons, List.nodup_cons] at hnd
      simp only [setOpts] at hrun
      by_cases h₀ : (List.lookup k₀ default_options).isSome
      · rw [if_pos h₀] at hrun
        rcases List.mem_cons.mp hmem with hh | ht
        · obtain ⟨hk, hv⟩ := Prod.mk.injEq .. ▸ hh
          have heq : k₀ = k := by
            have := congrArg Prod.fst hh
            exact this.symm
          have hv : v₀ = v := by
            have := congrArg Prod.snd hh
            exact this.symm
          subst heq; subst hv
          have hknot : k₀ ∉ tl.map Prod.fst := hnd.1
          rw [setOpts_lookup_notMentioned k₀ tl (dinsert k₀ v₀ d) hknot d' hrun]
          exact dinsert_lookup_self k₀ v₀ d
        · exact ih (dinsert k₀ v₀ d) d' ht hnd.2 hrun
      · rw [if_neg h₀] at hrun
        exact absurd hrun (by simp)

theorem adaptInit_ok_of (opts : List (String × PyVal))
    (h1 : ∀ k ∈ opts.map Prod.fst, (List.lookup k default_options).isSome)
    (h2 : xorCond (mergeOpts opts) = true) :
    adaptInit opts = .ok (mergeOpts opts) := by
  have hok := setOpts_ok_of_known opts default_options h1
  simp only [adaptInit, hok]
  simp only [xorCond, mergeOpts] at h2
  simp only [h2, if_true]
  rfl

/-- C9: `ADAPTSolver` construction fails exactly on invalid option
dictionaries.  If every user key is recognized, construction succeeds iff
exactly one of `molecule` and `qubit_hamiltonian` is truthy in the merged
options, raising `ValueError` otherwise; if some user key is unknown, a
`KeyError` naming an unknown user key is raised.  (The model makes no
backend call: `__init__` only merges and validates options.) -/
theorem adaptInit_validation (opts : List (String × PyVal)) :
    ((∀ k ∈ opts.map Prod.fst, (List.lookup k default_options).isSome) →
      adaptInit opts =
        if xorCond (mergeOpts opts) then .ok (mergeOpts opts)
        else .error .valueError) ∧
    ((∃ k ∈ opts.map Prod.fst, List.lookup k default_options = Option.none) →
      ∃ k, adaptInit opts = .error (.keyError k) ∧ k ∈ opts.map Prod.fst ∧
        List.lookup k default_options = Option.none) := by
  constructor
  · intro hknown
    have hok := setOpts_ok_of_known opts default_options hknown
    simp only [adaptInit, hok, mergeOpts, xorCond]
  · intro hbad
    obtain ⟨k, hrun, hmem, hnone⟩ := setOpts_err_of_unknown opts default_options hbad
    exact ⟨k, by simp only [adaptInit, hrun], hmem, hnone⟩

/-- Witness for C9: supplying only a molecule is a valid configuration and
construction succeeds; an unknown key is rejected with a `KeyError`. -/
theorem adaptInit_validation_witness :
    adaptInit [("molecule", PyVal.obj "H2")] = .ok (mergeOpts [("molecule", PyVal.obj "H2")]) ∧
    (∃ k, adaptInit [("bogus", PyVal.num 1)] = .error (.keyError k) ∧
      k ∈ [("bogus", PyVal.num 1)].map Prod.fst ∧
      List.lookup k default_options = Option.none) := by
  constructor
  · have h := (adaptInit_validation [("molecule", PyVal.obj "H2")]).1 (by decide)
    rw [h]
    have hx : xorCond (mergeOpts [("molecule", PyVal.obj "H2")]) = true := by decide
    rw [if_pos hx]
  · exact (adaptInit_validation [("bogus", PyVal.num 1)]).2 ⟨"bogus", by decide, by decide⟩

/-- C10: the `default_options` literal of `ADAPTSolver.__init__` lists
`"verbose"` twice (`False`, then `True`) and the later duplicate wins, so
a construction without a user-supplied `verbose` yields `verbose = True`;
an explicit user-supplied value overrides it. -/
theorem adaptInit_verbose_default (opts : List (String × PyVal)) (v : PyVal) :
    List.lookup "verbose" default_options = some (.bool true) ∧
    ("verbose" ∉ opts.map Prod.fst → ∀ d, adaptInit opts = .ok d →
      List.lookup "verbose" d = some (.bool true)) ∧
    ((opts.map Prod.fst).Nodup → ("verbose", v) ∈ opts → ∀ d, adaptInit opts = .ok d →
      List.lookup "verbose" d = some v) := by
  refine ⟨by decide, ?_, ?_⟩
  · intro hnot d hrun
    simp only [adaptInit] at hrun
    cases hset : setOpts default_options opts with
    | error e => rw [hset] at hrun; exact absurd hrun (by simp)
    | ok d' =>
        rw [hset] at hrun
        by_cases hx : Bool.xor ((List.lookup "molecule" d').getD .none).truthy
            ((List.lookup "qubit_hamiltonian" d').getD .none).truthy
        · simp only [hx, if_true] at hrun
          have hd : d' = d := by
            injection hrun
          subst hd
          rw [setOpts_lookup_notMentioned "verbose" opts default_options hnot d' hset]
          decide
        · simp only [hx, if_false] at hrun
          exact absurd hrun (by simp)
  · intro hnd hmem d hrun
    simp only [adaptInit] at hrun
    cases hset : setOpts default_options opts with
    | error e => rw [hset] at hrun; exact absurd hrun (by simp)
    | ok d' =>
        rw [hset] at hrun
        by_cases hx : Bool.xor ((List.lookup "molecule" d').getD .none).truthy
            ((List.lookup "qubit_hamiltonian" d').getD .none).truthy
        · simp only [hx, if_true] at hrun
          have hd : d' = d := by
            injection hrun
          subst hd
          exact setOpts_lookup_of_mem "verbose" v opts default_options d' hmem hnd hset
        · simp only [hx, if_false] at hrun
          exact absurd hrun (by simp)

/-- Witness for C10: a concrete construction with only a molecule supplied
ends up with `verbose = True`; one that explicitly passes `verbose = False`
keeps `False`. -/
theorem adaptInit_verbose_default_witness :
    List.lookup "verbose" (mergeOpts [("molecule", PyVal.obj "H2")]) =
      some (PyVal.bool true) ∧
    List.lookup "verbose"
        (mergeOpts [("molecule", PyVal.obj "H2"), ("verbose", PyVal.bool false)]) =
      some (PyVal.bool false) := by
  have h1 : adaptInit [("molecule", PyVal.obj "H2")] =
      .ok (mergeOpts [("molecule", PyVal.obj "H2")]) :=
    adaptInit_ok_of [("molecule", PyVal.obj "H2")] (by decide) (by decide)
  have h2 : adaptInit [("molecule", PyVal.obj "H2"), ("verbose", PyVal.bool false)] =
      .ok (mergeOpts [("molecule", PyVal.obj "H2"), ("verbose", PyVal.bool false)]) :=
    adaptInit_ok_of [("molecule", PyVal.obj "H2"), ("verbose", PyVal.bool false)]
      (by decide) (by decide)
  constructor
  · exact (adaptInit_verbose_default [("molecule", PyVal.obj "H2")]
      (PyVal.bool true)).2.1 (by decide) _ h1
  · exact (adaptInit_verbose_default
      [("molecule", PyVal.obj "H2"), ("verbose", PyVal.bool false)]
      (PyVal.bool false)).2.2 (by decide) (by decide) _ h2

/-! ### `ADAPTSolver.rank_pool`

`rank_pool` maps the pool of commutators to the absolute expectation values
(`gradient`), takes the Python `max` of that list, and returns
`gradient.index(max)` if the max clears the tolerance, else `-1`.
The backend's `get_expectation_value(element, circuit)` is an external
collaborator and is modelled as an abstract real-valued (rational) function
of the commutator, the circuit being fixed for the whole call. -/

/-- Python `max` on a list: the first element folded with binary max over the
rest (junk value 0 on the empty list, where Python raises). -/
def pymax : List ℚ → ℚ
  | [] => 0
  | x :: xs => xs.foldl max x

/-- Python `list.index`: index of the first occurrence (junk value `length`
when absent, where Python raises). -/
def pyindex (x : ℚ) : List ℚ → ℕ
  | [] => 0
  | y :: ys => if y = x then 0 else pyindex x ys + 1

/-- Model of `ADAPTSolver.rank_pool`: absolute expectation value of every pool
commutator, then the first index attaining the maximum if that maximum is
`≥ tolerance`, else `-1`. -/
def rank_pool {Op : Type} (pool_commutators : List Op) (backend : Op → ℚ)
    (tolerance : ℚ) : ℤ :=
  let gradient := pool_commutators.map (fun element => |backend element|)
  let gmax := pymax gradient
  if gmax ≥ tolerance then (pyindex gmax gradient : ℤ) else -1

theorem foldl_max_eq_or_mem (xs : List ℚ) :
    ∀ a : ℚ, xs.foldl max a = a ∨ xs.foldl max a ∈ xs := by
  induction xs with
  | nil => intro a; left; rfl
  | cons x xs ih =>
      intro a
      rcases ih (max a x) with h | h
      · rw [List.foldl_cons, h]
        rcases max_choice a x with hm | hm
        · left; exact hm
        · right; rw [hm]; exact List.mem_cons_self x xs
      · right
        rw [List.foldl_cons]
        exact List.mem_cons_of_mem x h

theorem pymax_mem (l : List ℚ) (h : l ≠ []) : pymax l ∈ l := by
  cases l with
  | nil => exact absurd rfl h
  | cons x xs =>
      rcases foldl_max_eq_or_mem xs x with h' | h'
      · rw [pymax, h']; exact List.mem_cons_self x xs
      · rw [pymax]; exact List.mem_cons_of_mem x h'

theorem le_foldl_max (xs : List ℚ) : ∀ a : ℚ, a ≤ xs.foldl max a := by
  induction xs with
  | nil => intro a; exact le_refl a
  | cons x xs ih =>
      intro a
      rw [List.foldl_cons]
      exact le_trans (le_max_left a x) (ih (max a x))

theorem mem_le_pymax (l : List ℚ) (x : ℚ) (h : x ∈ l) : x ≤ pymax l := by
  induction l with
  | nil => simp at h
  | cons y ys ih =>
      rcases List.mem_cons.mp h with h' | h'
      · subst h'
        exact le_foldl_max ys x
      · rw [pymax]
        cases ys with
        | nil => simp at h'
        | cons z zs =>
            have hle : pymax (z :: zs) ≤ (z :: zs).foldl max y := by
              rw [pymax, List.foldl_cons]
              have : ∀ (ws : List ℚ) (a b : ℚ), a ≤ b → ws.foldl max a ≤ ws.foldl max b := by
                intro ws
                induction ws with
                | nil => intro a b hab; exact hab
                | cons w ws ihw =>
                    intro a b hab
                    rw [List.foldl_cons, List.foldl_cons]
                    exact ihw (max a w) (max b w) (max_le_max hab (le_refl w))
              exact this zs z (max y z) (le_max_right y z)
            exact le_trans (ih h') hle

theorem pyindex_lt_length (x : ℚ) (l : List ℚ) (h : x ∈ l) :
    pyindex x l < l.length := by
  induction l with
  | nil => simp at h
  | cons y ys ih =>
      by_cases hy : y = x
      · simp [pyindex, hy]
      · rcases List.mem_cons.mp h with h' | h'
        · exact absurd h'.symm hy
        · simp only [pyindex, if_neg hy, List.length_cons]
          exact Nat.succ_lt_succ (ih h')

theorem pyindex_getD (x : ℚ) (l : List ℚ) (h : x ∈ l) :
    l.getD (pyindex x l) 0 = x := by
  induction l with
  | nil => simp at h
  | cons y ys ih =>
      by_cases hy : y = x
      · simp [pyindex, hy]
      · rcases List.mem_cons.mp h with h' | h'
        · exact absurd h'.symm hy
        · simp only [pyindex, if_neg hy]
          simpa using ih h'

theorem pyindex_first (x : ℚ) (l : List ℚ) :
    ∀ m < pyindex x l, l.getD m 0 ≠ x := by
  induction l with
  | nil => intro m hm; simp [pyindex] at hm
  | cons y ys ih =>
      intro m hm
      by_cases hy : y = x
      · simp [pyindex, hy] at hm
      · simp only [pyindex, if_neg hy] at hm
        cases m with
        | zero => simpa using hy
        | succ m' =>
            have : m' < pyindex x ys := Nat.lt_of_succ_lt_succ hm
            simpa using ih m' this

/-- C2: for a non-empty pool of commutators, `rank_pool` returns `-1`
exactly when the maximal absolute backend expectation value over the pool is
strictly below `tolerance`; otherwise it returns a valid index at which the
gradient list attains that maximum. -/
theorem rank_pool_spec {Op : Type} (pool_commutators : List Op)
    (backend : Op → ℚ) (tolerance : ℚ) (hne : pool_commutators ≠ []) :
    (rank_pool pool_commutators backend tolerance = -1 ↔
      pymax (pool_commutators.map (fun element => |backend element|)) < tolerance) ∧
    (tolerance ≤ pymax (pool_commutators.map (fun element => |backend element|)) →
      0 ≤ rank_pool pool_commutators backend tolerance ∧
      (rank_pool pool_commutators backend tolerance).toNat <
        (pool_commutators.map (fun element => |backend element|)).length ∧
      (pool_commutators.map (fun element => |backend element|)).getD
          (rank_pool pool_commutators backend tolerance).toNat 0 =
        pymax (pool_commutators.map (fun element => |backend element|))) := by
  have hgne : pool_commutators.map (fun element => |backend element|) ≠ [] := by
    simpa using hne
  set g := pool_commutators.map (fun element => |backend element|) with hg
  have hmem : pymax g ∈ g := pymax_mem g hgne
  constructor
  · constructor
    · intro hrank
      by_contra hlt
      push_neg at hlt
      simp only [rank_pool, ← hg, ge_iff_le, if_pos hlt] at hrank
      omega
    · intro hlt
      have : ¬ (tolerance ≤ pymax g) := not_le.mpr hlt
      simp only [rank_pool, ← hg, ge_iff_le, if_neg this]
  · intro hge
    simp only [rank_pool, ← hg, ge_iff_le, if_pos hge]
    refine ⟨by positivity, ?_, ?_⟩
    · simpa using pyindex_lt_length (pymax g) g hmem
    · simpa using pyindex_getD (pymax g) g hmem

/-- Witness for C2: a 2-operator pool with gradients `|3/10|` and `|-1/2|`
and tolerance `1/5`: index 1 is returned and attains the maximum `1/2`. -/
theorem rank_pool_spec_witness :
    0 ≤ rank_pool [0, 1] (fun i : ℕ => if i = 0 then 3/10 else -(1/2)) (1/5) ∧
    ([(0 : ℕ), 1].map (fun i => |if i = 0 then (3 : ℚ)/10 else -(1/2)|)).getD
        (rank_pool [0, 1] (fun i : ℕ => if i = 0 then 3/10 else -(1/2)) (1/5)).toNat 0 =
      pymax ([(0 : ℕ), 1].map (fun i => |if i = 0 then (3 : ℚ)/10 else -(1/2)|)) := by
  have h := (rank_pool_spec [0, 1]
    (fun i : ℕ => if i = 0 then (3 : ℚ)/10 else -(1/2)) (1/5) (by decide)).2
    (by norm_num [pymax, abs_of_nonneg, abs_of_nonpos, abs_neg])
  exact ⟨h.1, h.2.2⟩

/-- C7: when the maximum gradient magnitude clears the tolerance (so an
index is returned) and two distinct pool positions attain that exact
maximum, `rank_pool` deterministically returns the lowest pool index
attaining the maximum: its value attains the maximum, no smaller index
does, and in particular the result is at most the smaller of the two tied
indices. -/
theorem rank_pool_tie_break {Op : Type} (pool_commutators : List Op)
    (backend : Op → ℚ) (tolerance : ℚ) (i j : ℕ) (hij : i < j)
    (hj : j < (pool_commutators.map (fun element => |backend element|)).length)
    (hieq : (pool_commutators.map (fun element => |backend element|)).getD i 0 =
      pymax (pool_commutators.map (fun element => |backend element|)))
    (hjeq : (pool_commutators.map (fun element => |backend element|)).getD j 0 =
      pymax (pool_commutators.map (fun element => |backend element|)))
    (htol : tolerance ≤ pymax (pool_commutators.map (fun element => |backend element|))) :
    0 ≤ rank_pool pool_commutators backend tolerance ∧
    (pool_commutators.map (fun element => |backend element|)).getD
        (rank_pool pool_commutators backend tolerance).toNat 0 =
      pymax (pool_commutators.map (fun element => |backend element|)) ∧
    (∀ m < (rank_pool pool_commutators backend tolerance).toNat,
      (pool_commutators.map (fun element => |backend element|)).getD m 0 ≠
        pymax (pool_commutators.map (fun element => |backend element|))) ∧
    (rank_pool pool_commutators backend tolerance).toNat ≤ i := by
  set g := pool_commutators.map (fun element => |backend element|) with hg
  have hne : pool_commutators ≠ [] := by
    intro hc
    rw [hc] at hg
    simp [hg] at hj
  have hgne : g ≠ [] := by
    intro hc
    rw [hc] at hj
    simp at hj
  have hmem : pymax g ∈ g := pymax_mem g hgne
  have hr : rank_pool pool_commutators backend tolerance = (pyindex (pymax g) g : ℤ) := by
    simp only [rank_pool, ← hg, ge_iff_le, if_pos htol]
  refine ⟨by rw [hr]; positivity, ?_, ?_, ?_⟩
  · rw [hr]
    simpa using pyindex_getD (pymax g) g hmem
  · rw [hr]
    simpa using pyindex_first (pymax g) g
  · rw [hr]
    simp only [Int.toNat_ofNat]
    by_contra hgt
    push_neg at hgt
    exact pyindex_first (pymax g) g i hgt hieq

/-! ### `ADAPTSolver.simulate` — the outer ADAPT growth loop

The loop state gathers the attributes `simulate` reads and writes:
`self.iteration`, `self.converged`, the growing ansatz operator list
(`vqe_solver.ansatz`, grown by `add_operator`), the parameter list `params`,
and the recorded `energies`.  `optCalls` counts the `vqe_solver.simulate()`
invocations (one per successful growth round).

The ranking of the pool against the current circuit and the inner VQE
optimization are external to the loop (backend plus scipy); they enter as
abstract functions of the current ansatz/parameter state.  The ansatz is
modelled from the spec where `ADAPTUCCGSD` is absent from the sources:
`AnsatzState is created empty at run start` and `add_operator` appends one
term. -/

/-- The collaborators of one ADAPT run: the iteration budget `max_cycles`,
the pool ranking (`rank_pool` evaluated against the circuit of the current
ansatz operators and parameters) and the inner VQE minimization
`vqe_solver.simulate()` returning `(opt_energy, opt_params)`. -/
structure AdaptEnv where
  max_cycles : ℕ
  rank : List ℤ → List ℚ → ℤ
  optimize : List ℤ → List ℚ → ℚ × List ℚ

/-- Mutable state of `ADAPTSolver.simulate`. -/
structure AdaptState where
  iteration : ℕ
  converged : Bool
  ansatz_ops : List ℤ
  params : List ℚ
  energies : List ℚ
  optCalls : ℕ
deriving DecidableEq

/-- The body of a successful growth round (`pool_select > -1`): `params`
gets `0.` appended (previous parameters kept as they were), `add_operator`
appends the selected operator, the VQE re-optimization runs over the whole
parameter vector, its optimal energy is appended to `energies`, and its
optimal parameters replace `params`. -/
def growState (env : AdaptEnv) (s : AdaptState) : AdaptState :=
  { iteration := s.iteration + 1, converged := s.converged,
    ansatz_ops := s.ansatz_ops ++ [env.rank s.ansatz_ops s.params],
    params := (env.optimize (s.ansatz_ops ++ [env.rank s.ansatz_ops s.params])
      (s.params ++ [0])).2,
    energies := s.energies ++ [(env.optimize
      (s.ansatz_ops ++ [env.rank s.ansatz_ops s.params]) (s.params ++ [0])).1],
    optCalls := s.optCalls + 1 }

/-- The `while self.iteration < self.max_cycles` loop of
`ADAPTSolver.simulate`, with explicit fuel (the loop body always increments
`iteration`, so `max_cycles + 1` fuel is enough from iteration 0).
Each pass increments `iteration` and ranks the pool; on `pool_select > -1`
the round grows the ansatz and re-optimizes (`growState`), otherwise it
sets `converged = True` and breaks. -/
def adaptLoop (env : AdaptEnv) : ℕ → AdaptState → AdaptState
  | 0, s => s
  | fuel + 1, s =>
      if s.iteration < env.max_cycles then
        if env.rank s.ansatz_ops s.params > -1 then
          adaptLoop env fuel (growState env s)
        else
          { s with iteration := s.iteration + 1, converged := true }
      else s

/-- Modelled from the spec: the initial run state.  `ADAPTUCCGSD` is not
among the sources; per the spec the ansatz `is created empty at run start`,
so the initial operator list and variational-parameter list are empty, with
`converged = False` and `iteration = 0` set by `__init__`. -/
def adaptInitState : AdaptState :=
  { iteration := 0, converged := false, ansatz_ops := [], params := [],
    energies := [], optCalls := 0 }

/-- Run of `ADAPTSolver.simulate` from a fresh solver. -/
def adaptSimulate (env : AdaptEnv) : AdaptState :=
  adaptLoop env (env.max_cycles + 1) adaptInitState

theorem adaptLoop_succ_grow (env : AdaptEnv) (s : AdaptState) (fuel : ℕ)
    (hiter : s.iteration < env.max_cycles)
    (hsel : env.rank s.ansatz_ops s.params > -1) :
    adaptLoop env (fuel + 1) s = adaptLoop env fuel (growState env s) := by
  simp only [adaptLoop, if_pos hiter, if_pos hsel]

theorem adaptLoop_succ_stop (env : AdaptEnv) (s : AdaptState) (fuel : ℕ)
    (hiter : s.iteration < env.max_cycles)
    (hsel : ¬ env.rank s.ansatz_ops s.params > -1) :
    adaptLoop env (fuel + 1) s =
      { s with iteration := s.iteration + 1, converged := true } := by
  simp only [adaptLoop, if_pos hiter, if_neg hsel]

theorem adaptLoop_succ_exhaust (env : AdaptEnv) (s : AdaptState) (fuel : ℕ)
    (hiter : ¬ s.iteration < env.max_cycles) :
    adaptLoop env (fuel + 1) s = s := by
  simp only [adaptLoop, if_neg hiter]

theorem adaptLoop_iteration_le (env : AdaptEnv) :
    ∀ (fuel : ℕ) (s : AdaptState), s.iteration ≤ env.max_cycles →
      (adaptLoop env fuel s).iteration ≤ env.max_cycles := by
  intro fuel
  induction fuel with
  | zero => intro s hs; exact hs
  | succ fuel ih =>
      intro s hs
      by_cases hiter : s.iteration < env.max_cycles
      · by_cases hsel : env.rank s.ansatz_ops s.params > -1
        · rw [adaptLoop_succ_grow env s fuel hiter hsel]
          exact ih (growState env s) hiter
        · rw [adaptLoop_succ_stop env s fuel hiter hsel]
          exact hiter
      · rw [adaptLoop_succ_exhaust env s fuel hiter]
        exact hs

theorem adaptLoop_optCalls_le (env : AdaptEnv) :
    ∀ (fuel : ℕ) (s : AdaptState),
      (adaptLoop env fuel s).optCalls + s.iteration ≤
        s.optCalls + (adaptLoop env fuel s).iteration := by
  intro fuel
  induction fuel with
  | zero => intro s; exact le_refl _
  | succ fuel ih =>
      intro s
      by_cases hiter : s.iteration < env.max_cycles
      · by_cases hsel : env.rank s.ansatz_ops s.params > -1
        · rw [adaptLoop_succ_grow env s fuel hiter hsel]
          have h := ih (growState env s)
          have h1 : (growState env s).iteration = s.iteration + 1 := rfl
          have h2 : (growState env s).optCalls = s.optCalls + 1 := rfl
          omega
        · rw [adaptLoop_succ_stop env s fuel hiter hsel]
          simp
      · rw [adaptLoop_succ_exhaust env s fuel hiter]

theorem adaptLoop_noConverge (env : AdaptEnv)
    (hrank : ∀ ops p, env.rank ops p > -1) :
    ∀ (fuel : ℕ) (s : AdaptState), s.iteration ≤ env.max_cycles →
      env.max_cycles ≤ fuel + s.iteration →
      (adaptLoop env fuel s).converged = s.converged ∧
      (adaptLoop env fuel s).iteration = env.max_cycles := by
  intro fuel
  induction fuel with
  | zero =>
      intro s hs hf
      refine ⟨rfl, ?_⟩
      have hz : adaptLoop env 0 s = s := rfl
      rw [hz]
      omega
  | succ fuel ih =>
      intro s hs hf
      by_cases hiter : s.iteration < env.max_cycles
      · rw [adaptLoop_succ_grow env s fuel hiter (hrank s.ansatz_ops s.params)]
        have h1 : (growState env s).iteration = s.iteration + 1 := rfl
        have h := ih (growState env s) (by omega) (by omega)
        exact ⟨h.1, h.2⟩
      · rw [adaptLoop_succ_exhaust env s fuel hiter]
        exact ⟨rfl, by omega⟩

theorem adaptLoop_param_invariant (env : AdaptEnv)
    (hlen : ∀ ops p, ((env.optimize ops p).2).length = p.length) :
    ∀ (fuel : ℕ) (s : AdaptState), s.params.length = s.ansatz_ops.length →
      (adaptLoop env fuel s).params.length = (adaptLoop env fuel s).ansatz_ops.length ∧
      (adaptLoop env fuel s).ansatz_ops.length + s.optCalls =
        s.ansatz_ops.length + (adaptLoop env fuel s).optCalls ∧
      (adaptLoop env fuel s).energies.length + s.optCalls =
        s.energies.length + (adaptLoop env fuel s).optCalls := by
  intro fuel
  induction fuel with
  | zero => intro s hs; exact ⟨hs, rfl, rfl⟩
  | succ fuel ih =>
      intro s hs
      by_cases hiter : s.iteration < env.max_cycles
      · by_cases hsel : env.rank s.ansatz_ops s.params > -1
        · rw [adaptLoop_succ_grow env s fuel hiter hsel]
          have hginv : (growState env s).params.length =
              (growState env s).ansatz_ops.length := by
            simp only [growState, hlen]
            simp [hs]
          have h := ih (growState env s) hginv
          have h1 : (growState env s).ansatz_ops.length = s.ansatz_ops.length + 1 := by
            simp [growState]
          have h2 : (growState env s).energies.length = s.energies.length + 1 := by
            simp [growState]
          have h3 : (growState env s).optCalls = s.optCalls + 1 := rfl
          omega
        · rw [adaptLoop_succ_stop env s fuel hiter hsel]
          exact ⟨hs, rfl, rfl⟩
      · rw [adaptLoop_succ_exhaust env s fuel hiter]
        exact ⟨hs, rfl, rfl⟩

/-- C3: a round in which `rank_pool` returns the `-1` sentinel sets
`converged` to `True` and breaks immediately: the ansatz, the parameter
list, the energy history and the optimizer-call count are all left exactly
as they were — only the iteration counter (already incremented on loop
entry) changes, and no further optimization runs. -/
theorem adapt_notFound_stops (env : AdaptEnv) (s : AdaptState) (fuel : ℕ)
    (hiter : s.iteration < env.max_cycles)
    (hrank : env.rank s.ansatz_ops s.params = -1) :
    adaptLoop env (fuel + 1) s =
      { s with iteration := s.iteration + 1, converged := true } := by
  have hsel : ¬ (env.rank s.ansatz_ops s.params > -1) := by
    rw [hrank]
    omega
  exact adaptLoop_succ_stop env s fuel hiter hsel

/-- Witness for C3: a concrete environment whose ranker immediately signals
convergence: one round runs, converges, and changes nothing else. -/
theorem adapt_notFound_stops_witness :
    adaptLoop (AdaptEnv.mk 15 (fun _ _ => -1) (fun _ p => (0, p))) 15 adaptInitState
      = AdaptState.mk 1 true [] [] [] 0 := by
  have h := adapt_notFound_stops (AdaptEnv.mk 15 (fun _ _ => -1) (fun _ p => (0, p)))
    adaptInitState 14 (by simp [adaptInitState]) rfl
  simpa [adaptInitState] using h

/-- C4: a round in which `rank_pool` returns an index `k > -1` appends
exactly `k` to the ansatz and hands the optimizer the previous parameters,
kept in place and in order, with a single `0.0` appended at the end; if the
optimizer returns as many parameters as it is given, the invariant
`len(params) = len(ansatz terms)` holds at every round boundary, and both
the ansatz and the energy history grow by exactly one entry per successful
round (one optimizer call each). -/
theorem adapt_growth_round (env : AdaptEnv) (s : AdaptState) (fuel : ℕ) (k : ℤ)
    (hlen : ∀ ops p, ((env.optimize ops p).2).length = p.length)
    (hiter : s.iteration < env.max_cycles)
    (hrank : env.rank s.ansatz_ops s.params = k) (hk : k > -1)
    (hinv : s.params.length = s.ansatz_ops.length) :
    adaptLoop env (fuel + 1) s = adaptLoop env fuel (growState env s) ∧
    (growState env s).ansatz_ops = s.ansatz_ops ++ [k] ∧
    (growState env s).params = (env.optimize (s.ansatz_ops ++ [k]) (s.params ++ [0])).2 ∧
    (growState env s).energies =
      s.energies ++ [(env.optimize (s.ansatz_ops ++ [k]) (s.params ++ [0])).1] ∧
    (s.params ++ [0]).length = (s.ansatz_ops ++ [k]).length ∧
    (adaptLoop env (fuel + 1) s).params.length =
      (adaptLoop env (fuel + 1) s).ansatz_ops.length ∧
    (adaptLoop env (fuel + 1) s).ansatz_ops.length + s.optCalls =
      s.ansatz_ops.length + (adaptLoop env (fuel + 1) s).optCalls ∧
    (adaptLoop env (fuel + 1) s).energies.length + s.optCalls =
      s.energies.length + (adaptLoop env (fuel + 1) s).optCalls := by
  have hsel : env.rank s.ansatz_ops s.params > -1 := by rw [hrank]; exact hk
  have hrest := adaptLoop_param_invariant env hlen (fuel + 1) s hinv
  refine ⟨adaptLoop_succ_grow env s fuel hiter hsel, ?_, ?_, ?_, by simp [hinv],
    hrest.1, hrest.2.1, hrest.2.2⟩
  · simp [growState, hrank]
  · simp [growState, hrank]
  · simp [growState, hrank]

/-- Witness for C4: a concrete round from the fresh state where the ranker
picks operator 0 and the optimizer echoes its input parameters. -/
theorem adapt_growth_round_witness :
    (growState (AdaptEnv.mk 2 (fun _ _ => 0) (fun _ p => (0, p))) adaptInitState).ansatz_ops
      = [0] ∧
    (growState (AdaptEnv.mk 2 (fun _ _ => 0) (fun _ p => (0, p))) adaptInitState).params
      = [0] := by
  have h := adapt_growth_round (AdaptEnv.mk 2 (fun _ _ => 0) (fun _ p => (0, p)))
    adaptInitState 2 0 (fun _ _ => rfl) (by simp [adaptInitState]) rfl
    (by omega) rfl
  refine ⟨?_, ?_⟩
  · rw [h.2.1]
    rfl
  · rw [h.2.2.1]
    rfl

/-- C5: `simulate` performs at most `max_cycles` rounds (the defaults being
`max_cycles = 15` and `tol = 1e-3` in `default_options`): the final
iteration counter and the number of growth rounds (optimizer calls) are both
at most `max_cycles`, and if the ranker never returns the sentinel the run
ends exhausted, with `converged` still `False` and the counter equal to
`max_cycles`. -/
theorem adapt_budget (env : AdaptEnv) :
    List.lookup "max_cycles" default_options = some (.num 15) ∧
    List.lookup "tol" default_options = some (.num (1/1000)) ∧
    (adaptSimulate env).iteration ≤ env.max_cycles ∧
    (adaptSimulate env).optCalls ≤ env.max_cycles ∧
    ((∀ ops p, env.rank ops p > -1) →
      (adaptSimulate env).converged = false ∧
      (adaptSimulate env).iteration = env.max_cycles) := by
  refine ⟨rfl, rfl, ?_, ?_, ?_⟩
  · exact adaptLoop_iteration_le env (env.max_cycles + 1) adaptInitState
      (by simp [adaptInitState])
  · have h1 := adaptLoop_optCalls_le env (env.max_cycles + 1) adaptInitState
    have h2 := adaptLoop_iteration_le env (env.max_cycles + 1) adaptInitState
      (by simp [adaptInitState])
    have e1 : adaptInitState.optCalls = 0 := rfl
    have e2 : adaptInitState.iteration = 0 := rfl
    simp only [adaptSimulate]
    omega
  · intro hrank
    have h := adaptLoop_noConverge env hrank (env.max_cycles + 1) adaptInitState
      (by simp [adaptInitState]) (by simp [adaptInitState])
    have e1 : adaptInitState.converged = false := rfl
    simp only [adaptSimulate]
    rw [h.1, e1]
    exact ⟨rfl, h.2⟩

/-- Witness for C5: with a ranker that always returns index 0 and budget 2,
the run exhausts: not converged, and the counter stops at 2. -/
theorem adapt_budget_witness :
    (adaptSimulate (AdaptEnv.mk 2 (fun _ _ => 0) (fun _ p => (0, p)))).converged
      = false ∧
    (adaptSimulate (AdaptEnv.mk 2 (fun _ _ => 0) (fun _ p => (0, p)))).iteration
      = 2 := by
  exact (adapt_budget (AdaptEnv.mk 2 (fun _ _ => 0) (fun _ p => (0, p)))).2.2.2.2
    (fun _ _ => show (0 : ℤ) > -1 by omega)

theorem adaptLoop_energy_chain (env : AdaptEnv) (obj : List ℤ → List ℚ → ℚ)
    (hdesc : ∀ ops p, (env.optimize ops p).1 ≤ obj ops p)
    (hval : ∀ ops p, (env.optimize ops p).1 = obj ops (env.optimize ops p).2)
    (hzero : ∀ ops k p, obj (ops ++ [k]) (p ++ [0]) = obj ops p) :
    ∀ (fuel : ℕ) (s : AdaptState),
      List.Chain' (fun a b => b ≤ a) s.energies →
      (∀ e, s.energies.getLast? = some e → e = obj s.ansatz_ops s.params) →
      List.Chain' (fun a b => b ≤ a) ((adaptLoop env fuel s).energies) := by
  intro fuel
  induction fuel with
  | zero => intro s h1 _; exact h1
  | succ fuel ih =>
      intro s h1 h2
      by_cases hiter : s.iteration < env.max_cycles
      · by_cases hsel : env.rank s.ansatz_ops s.params > -1
        · rw [adaptLoop_succ_grow env s fuel hiter hsel]
          have hops : (growState env s).ansatz_ops =
              s.ansatz_ops ++ [env.rank s.ansatz_ops s.params] := rfl
          have hen : (growState env s).energies = s.energies ++
              [(env.optimize (s.ansatz_ops ++ [env.rank s.ansatz_ops s.params])
                (s.params ++ [0])).1] := rfl
          apply ih (growState env s)
          · rw [hen, List.chain'_append]
            refine ⟨h1, List.chain'_singleton _, ?_⟩
            intro x hx y hy
            simp only [List.head?_cons, Option.mem_def, Option.some.injEq] at hy
            subst hy
            have hx' := h2 x (Option.mem_def.mp hx)
            calc (env.optimize (s.ansatz_ops ++ [env.rank s.ansatz_ops s.params])
                  (s.params ++ [0])).1
                ≤ obj (s.ansatz_ops ++ [env.rank s.ansatz_ops s.params])
                  (s.params ++ [0]) := hdesc _ _
              _ = obj s.ansatz_ops s.params := hzero _ _ _
              _ = x := hx'.symm
          · intro e he
            rw [hen, List.getLast?_concat] at he
            have he' : e = (env.optimize (s.ansatz_ops ++
                [env.rank s.ansatz_ops s.params]) (s.params ++ [0])).1 :=
              (Option.some.injEq .. ▸ he).symm
            rw [he']
            exact hval _ _
        · rw [adaptLoop_succ_stop env s fuel hiter hsel]
          exact h1
      · rw [adaptLoop_succ_exhaust env s fuel hiter]
        exact h1

theorem chain_ge_getD (l : List ℚ) (h : List.Chain' (fun a b => b ≤ a) l) :
    ∀ i, i + 1 < l.length → l.getD (i + 1) 0 ≤ l.getD i 0 := by
  induction l with
  | nil => intro i hi; simp at hi
  | cons x xs ih =>
      intro i hi
      cases xs with
      | nil => simp at hi
      | cons y ys =>
          have h' := List.chain'_cons.mp h
          cases i with
          | zero => simpa using h'.1
          | succ j =>
              have := ih h'.2 j (by simpa using hi)
              simpa using this

/-- C1: across the rounds of one `simulate` run the recorded optimal
energies are monotonically non-increasing — `energies[i+1] ≤ energies[i]`,
hence `≤ energies[i] + ε` for any tolerance `ε ≥ 0` — because round `i+1`
re-optimizes from the previous optimal parameters extended with a `0.0`
(which leaves the objective value unchanged), under the optimizer contract
that the returned minimum is no worse than the objective at the supplied
starting point and equals the objective at the returned parameters. -/
theorem adapt_energy_monotone (env : AdaptEnv) (obj : List ℤ → List ℚ → ℚ)
    (hdesc : ∀ ops p, (env.optimize ops p).1 ≤ obj ops p)
    (hval : ∀ ops p, (env.optimize ops p).1 = obj ops (env.optimize ops p).2)
    (hzero : ∀ ops k p, obj (ops ++ [k]) (p ++ [0]) = obj ops p) :
    List.Chain' (fun a b => b ≤ a) (adaptSimulate env).energies ∧
    ∀ ε : ℚ, 0 ≤ ε → ∀ i : ℕ, i + 1 < (adaptSimulate env).energies.length →
      (adaptSimulate env).energies.getD (i + 1) 0 ≤
        (adaptSimulate env).energies.getD i 0 + ε := by
  have hchain : List.Chain' (fun a b => b ≤ a) (adaptSimulate env).energies := by
    apply adaptLoop_energy_chain env obj hdesc hval hzero (env.max_cycles + 1)
      adaptInitState
    · exact List.chain'_nil
    · intro e he
      simp [adaptInitState] at he
  refine ⟨hchain, ?_⟩
  intro ε hε i hi
  have := chain_ge_getD (adaptSimulate env).energies hchain i hi
  linarith

/-- Witness for C1: a concrete 2-round run (constant-zero objective and an
echo optimizer satisfying the contracts) whose recorded energies `[0, 0]`
form a non-increasing chain. -/
theorem adapt_energy_monotone_witness :
    (adaptSimulate (AdaptEnv.mk 2 (fun ops _ => if ops.length < 2 then 0 else -1)
      (fun _ p => (0, p)))).energies = [0, 0] ∧
    List.Chain' (fun a b => b ≤ a)
      (adaptSimulate (AdaptEnv.mk 2 (fun ops _ => if ops.length < 2 then 0 else -1)
        (fun _ p => (0, p)))).energies := by
  constructor
  · rfl
  · exact (adapt_energy_monotone
      (AdaptEnv.mk 2 (fun ops _ => if ops.length < 2 then 0 else -1)
        (fun _ p => (0, p)))
      (fun _ _ => 0) (fun _ _ => le_refl 0) (fun _ _ => rfl) (fun _ _ _ => rfl)).1

/-- Witness for C7: a 3-operator pool where positions 0 and 2 tie at the
maximal magnitude `1/2`: index 0 is selected. -/
theorem rank_pool_tie_break_witness :
    (rank_pool [0, 1, 2]
      (fun i : ℕ => if i = 1 then 1/10 else -(1/2)) (1/5)).toNat ≤ 0 := by
  have h := rank_pool_tie_break [0, 1, 2]
    (fun i : ℕ => if i = 1 then (1 : ℚ)/10 else -(1/2)) (1/5) 0 2
    (by norm_num) (by simp) (by norm_num [pymax, abs_of_nonneg, abs_of_nonpos, abs_neg]) (by norm_num [pymax, abs_of_nonneg, abs_of_nonpos, abs_neg])
    (by norm_num [pymax, abs_of_nonneg, abs_of_nonpos, abs_neg])
  exact h.2.2.2

/-! ### The `UCCSD` ansatz: parameter handling and circuit updates

State of a `UCCSD` instance as far as the claims are concerned:
`n_var_params` (fixed at construction), `var_params`, the variational gates of the built
circuit (one per Pauli word, carrying that word and its rotation
parameter), and `pauli_to_angles_mapping` from Pauli word to the position of
its variational gate.

Pauli words are abstract identifiers (`ℕ`) with a length function `wlen`
(Python `len(pauli_word)`); the UCCSD generator composed with the
fermion-to-qubit mapping is, for a fixed molecule, a fixed ordered family of
candidate words `ws` with a coefficient `c w p` depending on the variational
parameters, from which `qubit_op.compress()` drops zero-coefficient terms.
These collaborators (`uccsd_singlet_generator`, `fermion_to_qubit_mapping`)
are external to the ansatz class and enter as parameters of the model. -/

/-- Input accepted by `UCCSD.set_var_params`: an initialization keyword or
an explicit parameter vector. -/
inductive VarInput where
  | kw (s : String) : VarInput
  | vec (v : List ℚ) : VarInput
deriving DecidableEq

/-- State of a `UCCSD` ansatz instance. -/
structure UState where
  n_var_params : ℕ
  var_params : Option (List ℚ)
  gates : List (ℕ × ℚ)
  mapping : List (ℕ × ℕ)
deriving DecidableEq

/-- Closed-shell parameter count of `UCCSD.__init__` (`spin = 0`): an odd
number of spin-orbitals raises `ValueError`; otherwise
`n_singles = n_occupied * n_virtual` and
`n_doubles = n_singles * (n_singles + 1) / 2` with
`n_occupied = ceil(n_electrons / 2)` and
`n_virtual = n_spinorbitals / 2 - n_occupied`. -/
def uccsdInit (n_spinorbitals n_electrons : ℕ) : Except PyErr UState :=
  if n_spinorbitals % 2 ≠ 0 then .error .valueError
  else
    let n_spatial_orbitals := n_spinorbitals / 2
    let n_occupied := (n_electrons + 1) / 2
    let n_virtual := n_spatial_orbitals - n_occupied
    let n_singles := n_occupied * n_virtual
    let n_doubles := n_singles * (n_singles + 1) / 2
    .ok { n_var_params := n_singles + n_doubles, var_params := Option.none,
          gates := [], mapping := [] }

/-- Python `UCCSD.set_var_params`: a `None` argument falls back to the
default keyword `"ones"`; a keyword outside the supported set raises
`ValueError`; `"ones"` yields the all-ones vector, `"random"` yields
`2e-1 * (random(n) - 0.5)` with the random stream modelled by `rng`; an
explicit vector whose length disagrees with `n_var_params` raises
`ValueError` (the failed `assert` is converted), otherwise it is stored
unchanged. -/
def set_var_params (rng : ℕ → ℚ) (a : UState) (vp : Option VarInput) :
    Except PyErr UState :=
  match vp.getD (.kw "ones") with
  | .kw s =>
      if s = "ones" then
        .ok { a with var_params := some (List.replicate a.n_var_params 1) }
      else if s = "random" then
        .ok { a with
              var_params := some ((List.range a.n_var_params).map
                (fun i => (rng i - 1/2) / 5)) }
      else .error .valueError
  | .vec v =>
      if v.length = a.n_var_params then .ok { a with var_params := some v }
      else .error .valueError

/-- Rational value of the Python float `4 * np.pi` (the float `np.pi` is
exactly `884279719003555 / 281474976710656`). -/
def fourPi : ℚ := 4 * (884279719003555 / 281474976710656)

/-- Rotation parameter assigned to the variational gate of a Pauli word
with coefficient `coef`: `2.*coef if coef >= 0. else 4*np.pi+2*coef`
(`UCCSD.update_var_params` line 162; `pauliword_to_circuit` of
`ansatz_utils`, absent from the sources, is modelled from the spec as
assigning the same angle on build, which is what makes the fast in-place
update consistent). -/
def pangle (coef : ℚ) : ℚ := if 0 ≤ coef then 2 * coef else fourPi + 2 * coef

section UCCSDCircuit

variable (wlen : ℕ → ℕ) (ws : List ℕ) (c : ℕ → List ℚ → ℚ)

/-- Pauli words of the UCCSD qubit operator at parameters `p`: the fixed
family `ws` minus the zero-coefficient words removed by `compress()`. -/
def wordsOf (p : List ℚ) : List ℕ :=
  ws.filter (fun w => decide (c w p ≠ 0))

/-- Items of `qubit_op.terms` at parameters `p`, in generator order. -/
def qubitOp (p : List ℚ) : List (ℕ × ℚ) :=
  (wordsOf ws c p).map (fun w => (w, c w p))

/-- Stable insertion of a pair into a list sorted by word length:
an element passes over exactly the earlier elements of strictly smaller
key, so equal keys keep their original relative order, as with the Python
stable `sorted(..., key=lambda x: len(x[0]))`. -/
def insP (a : ℕ × ℚ) : List (ℕ × ℚ) → List (ℕ × ℚ)
  | [] => [a]
  | b :: l => if wlen b.1 < wlen a.1 then b :: insP a l else a :: b :: l

/-- Stable sort of the qubit-operator items by Pauli-word length. -/
def ssortP : List (ℕ × ℚ) → List (ℕ × ℚ)
  | [] => []
  | x :: xs => insP wlen x (ssortP xs)

/-- Stable insertion of a word, by word length. -/
def insW (a : ℕ) : List ℕ → List ℕ
  | [] => [a]
  | b :: l => if wlen b < wlen a then b :: insW a l else a :: b :: l

/-- Stable sort of words by length. -/
def ssortW : List ℕ → List ℕ
  | [] => []
  | x :: xs => insW wlen x (ssortW xs)

end UCCSDCircuit

/-- Helper of `mkMapping`: enumerate from a start index. -/
def mkMappingAux : ℕ → List ℕ → List (ℕ × ℕ)
  | _, [] => []
  | i, w :: tl => (w, i) :: mkMappingAux (i + 1) tl

/-- The `pauli_to_angles_mapping` dict: each sorted Pauli word mapped to
its position `i` in the sorted item list. -/
def mkMapping (sortedWords : List ℕ) : List (ℕ × ℕ) :=
  mkMappingAux 0 sortedWords

/-- Assignment `self.circuit._variational_gates[i].parameter = v`: replace
the parameter of the gate at position `i`, keeping its word. -/
def setParam : List (ℕ × ℚ) → ℕ → ℚ → List (ℕ × ℚ)
  | [], _, _ => []
  | g :: gs, 0, v => (g.1, v) :: gs
  | g :: gs, n + 1, v => g :: setParam gs n v

/-- Result of one fast-path assignment given the mapping lookup of the
word: a found position is overwritten (a missing word would raise
`KeyError` in Python; the fast path only runs when every word is present,
so the none case is the identity). -/
def setParamOpt (gs : List (ℕ × ℚ)) : Option ℕ → ℚ → List (ℕ × ℚ)
  | some i, v => setParam gs i v
  | Option.none, _ => gs

/-- The fast-path loop of `UCCSD.update_var_params`: for each
`(pauli_word, coef)` of the new qubit operator, look the word up in the
cached mapping and overwrite that gate's parameter with the new angle. -/
def fastUpdate : List (ℕ × ℚ) → List (ℕ × ℕ) → List (ℕ × ℚ) → List (ℕ × ℚ)
  | gs, _, [] => gs
  | gs, mp, (w, coef) :: rest =>
      fastUpdate (setParamOpt gs (List.lookup w mp) (pangle coef)) mp rest

/-- Python `set(A) != set(B)` negated: equality of two key lists as sets. -/
def sameSet (a b : List ℕ) : Bool :=
  a.all (fun x => decide (x ∈ b)) && b.all (fun x => decide (x ∈ a))

section UCCSDOps

variable (wlen : ℕ → ℕ) (ws : List ℕ) (c : ℕ → List ℚ → ℚ)

/-- Body of `UCCSD.build_circuit` after parameter handling: sort the
qubit-operator items by word length (stably), emit one variational gate per
item carrying the angle of its coefficient, and record
`pauli_to_angles_mapping` from word to gate position. -/
def buildCircuitCore (a : UState) : UState :=
  { a with
    gates := (ssortP wlen (qubitOp ws c (a.var_params.getD []))).map
      (fun wc => (wc.1, pangle wc.2)),
    mapping := mkMapping ((ssortP wlen (qubitOp ws c (a.var_params.getD []))).map
      Prod.fst) }

/-- Python `UCCSD.build_circuit(var_params=None)`: set the parameters if an
argument is given (or if none were ever set), then rebuild gates and
mapping. -/
def build_circuit (rng : ℕ → ℚ) (a : UState) (vp : Option VarInput) :
    Except PyErr UState :=
  match (match vp with
         | some v => set_var_params rng a (some v)
         | Option.none =>
             if a.var_params.isNone then set_var_params rng a Option.none
             else .ok a) with
  | .error e => .error e
  | .ok a' => .ok (buildCircuitCore wlen ws c a')

/-- Python `UCCSD.update_var_params`: set the parameters first; if the
Pauli-word set of the new qubit operator differs from the key set of the cached
mapping, fall back to a full `build_circuit`; otherwise overwrite the
existing variational gates' parameters in place. -/
def update_var_params (rng : ℕ → ℚ) (a : UState) (vp : VarInput) :
    Except PyErr UState :=
  match set_var_params rng a (some vp) with
  | .error e => .error e
  | .ok a' =>
      if sameSet (a'.mapping.map Prod.fst)
          ((qubitOp ws c (a'.var_params.getD [])).map Prod.fst) then
        .ok { a' with
              gates := fastUpdate a'.gates a'.mapping
                (qubitOp ws c (a'.var_params.getD [])) }
      else
        build_circuit wlen ws c rng a' (some vp)

end UCCSDOps

theorem insP_map (wlen : ℕ → ℕ) (f : ℕ → ℚ) (w : ℕ) :
    ∀ l : List ℕ, insP wlen (w, f w) (l.map (fun v => (v, f v))) =
      (insW wlen w l).map (fun v => (v, f v)) := by
  intro l
  induction l with
  | nil => rfl
  | cons b bl ih =>
      simp only [List.map_cons, insP, insW]
      by_cases h : wlen b < wlen w
      · simp only [if_pos h, ih, List.map_cons]
      · simp only [if_neg h, List.map_cons]

theorem ssortP_map (wlen : ℕ → ℕ) (f : ℕ → ℚ) :
    ∀ l : List ℕ, ssortP wlen (l.map (fun v => (v, f v))) =
      (ssortW wlen l).map (fun v => (v, f v)) := by
  intro l
  induction l with
  | nil => rfl
  | cons b bl ih =>
      simp only [List.map_cons, ssortP, ssortW, ih, insP_map]

theorem insW_perm (wlen : ℕ → ℕ) (a : ℕ) :
    ∀ l, List.Perm (insW wlen a l) (a :: l) := by
  intro l
  induction l with
  | nil => exact List.Perm.refl _
  | cons b bl ih =>
      simp only [insW]
      by_cases h : wlen b < wlen a
      · rw [if_pos h]
        exact List.Perm.trans (List.Perm.cons b ih) (List.Perm.swap a b bl)
      · rw [if_neg h]

theorem ssortW_perm (wlen : ℕ → ℕ) :
    ∀ l, List.Perm (ssortW wlen l) l := by
  intro l
  induction l with
  | nil => exact List.Perm.refl _
  | cons b bl ih =>
      simp only [ssortW]
      exact List.Perm.trans (insW_perm wlen b (ssortW wlen bl)) (List.Perm.cons b ih)

theorem mkMappingAux_keys :
    ∀ (S : List ℕ) (i : ℕ), (mkMappingAux i S).map Prod.fst = S := by
  intro S
  induction S with
  | nil => intro i; rfl
  | cons u tl ih =>
      intro i
      simp only [mkMappingAux, List.map_cons, ih]

theorem lookup_mkMappingAux_shift (w : ℕ) :
    ∀ (S : List ℕ) (i : ℕ),
      List.lookup w (mkMappingAux (i + 1) S) =
        (List.lookup w (mkMappingAux i S)).map (· + 1) := by
  intro S
  induction S with
  | nil => intro i; rfl
  | cons u tl ih =>
      intro i
      cases h : (w == u) with
      | true => simp [mkMappingAux, List.lookup, h]
      | false => simp [mkMappingAux, List.lookup, h, ih]

theorem fastOne (S : List ℕ) (hnd : S.Nodup) (w : ℕ) (f : ℕ → ℚ) (x : ℚ) :
    setParamOpt (S.map (fun v => (v, f v))) (List.lookup w (mkMapping S)) x =
      S.map (fun v => (v, if v = w then x else f v)) := by
  induction S with
  | nil => rfl
  | cons u tl ih =>
      have hnd' := List.nodup_cons.mp hnd
      cases h : (w == u) with
      | true =>
          have hwu : w = u := beq_iff_eq.mp h
          subst hwu
          simp only [mkMapping, mkMappingAux, List.lookup, h, List.map_cons,
            setParamOpt, setParam]
          have htl : tl.map (fun v => (v, if v = w then x else f v)) =
              tl.map (fun v => (v, f v)) := by
            apply List.map_congr_left
            intro v hv
            have hvne : v ≠ w := fun hc => hnd'.1 (hc ▸ hv)
            simp [hvne]
          rw [htl]
          simp
      | false =>
          have hwu : u ≠ w := by
            intro hc
            rw [hc] at h
            simp at h
          simp only [mkMapping, mkMappingAux, List.lookup, h, List.map_cons]
          rw [show mkMappingAux 1 tl = mkMappingAux (0 + 1) tl from rfl,
            lookup_mkMappingAux_shift w tl 0]
          have ihtl := ih hnd'.2
          simp only [mkMapping] at ihtl
          cases hlk : List.lookup w (mkMappingAux 0 tl) with
          | none =>
              rw [hlk] at ihtl
              simp only [setParamOpt] at ihtl
              simp only [Option.map_none, setParamOpt]
              rw [ihtl]
              simp [hwu]
          | some j =>
              rw [hlk] at ihtl
              simp only [setParamOpt] at ihtl
              simp only [Option.map_some', setParamOpt, setParam]
              rw [ihtl]
              simp [hwu]

theorem fastUpdate_eq (S : List ℕ) (hnd : S.Nodup) (g : ℕ → ℚ) :
    ∀ (L : List ℕ) (f : ℕ → ℚ),
      fastUpdate (S.map (fun v => (v, f v))) (mkMapping S)
        (L.map (fun w => (w, g w))) =
      S.map (fun v => (v, if v ∈ L then pangle (g v) else f v)) := by
  intro L
  induction L with
  | nil =>
      intro f
      simp only [List.map_nil, fastUpdate]
      apply List.map_congr_left
      intro v _
      simp
  | cons w L ih =>
      intro f
      simp only [List.map_cons, fastUpdate]
      rw [fastOne S hnd w f (pangle (g w))]
      rw [ih (fun v => if v = w then pangle (g w) else f v)]
      apply List.map_congr_left
      intro v _
      by_cases hL : v ∈ L
      · simp [hL]
      · by_cases hw : v = w
        · subst hw
          simp [hL]
        · simp [hL, hw]

theorem sameSet_iff (a b : List ℕ) :
    sameSet a b = true ↔ ∀ x, x ∈ a ↔ x ∈ b := by
  simp only [sameSet, Bool.and_eq_true, List.all_eq_true, decide_eq_true_eq]
  constructor
  · rintro ⟨h1, h2⟩ x
    exact ⟨fun hx => h1 x hx, fun hx => h2 x hx⟩
  · intro h
    exact ⟨fun x hx => (h x).mp hx, fun x hx => (h x).mpr hx⟩

theorem mem_wordsOf (ws : List ℕ) (c : ℕ → List ℚ → ℚ) (p : List ℚ) (w : ℕ) :
    w ∈ wordsOf ws c p ↔ w ∈ ws ∧ c w p ≠ 0 := by
  simp [wordsOf, List.mem_filter]

theorem wordsOf_eq_of_sameMem (ws : List ℕ) (c : ℕ → List ℚ → ℚ) (p p₀ : List ℚ)
    (h : ∀ x, x ∈ wordsOf ws c p₀ ↔ x ∈ wordsOf ws c p) :
    wordsOf ws c p = wordsOf ws c p₀ := by
  unfold wordsOf
  apply List.filter_congr
  intro w hw
  have h1 := mem_wordsOf ws c p w
  have h2 := mem_wordsOf ws c p₀ w
  have h3 := h w
  by_cases hc : c w p = 0 <;> by_cases hc0 : c w p₀ = 0 <;> simp_all

theorem wordsOf_nodup (ws : List ℕ) (c : ℕ → List ℚ → ℚ) (p : List ℚ)
    (hnd : ws.Nodup) : (wordsOf ws c p).Nodup :=
  List.Nodup.filter _ hnd

theorem buildCircuitCore_fields (wlen : ℕ → ℕ) (ws : List ℕ)
    (c : ℕ → List ℚ → ℚ) (a₁ : UState) (p₀ : List ℚ)
    (hvp : a₁.var_params = some p₀) :
    (buildCircuitCore wlen ws c a₁).gates =
      (ssortW wlen (wordsOf ws c p₀)).map (fun w => (w, pangle (c w p₀))) ∧
    (buildCircuitCore wlen ws c a₁).mapping =
      mkMapping (ssortW wlen (wordsOf ws c p₀)) ∧
    (buildCircuitCore wlen ws c a₁).n_var_params = a₁.n_var_params ∧
    (buildCircuitCore wlen ws c a₁).var_params = some p₀ := by
  refine ⟨?_, ?_, rfl, ?_⟩
  · unfold buildCircuitCore qubitOp
    rw [hvp]
    simp only [Option.getD_some, ssortP_map, List.map_map]
    rfl
  · unfold buildCircuitCore qubitOp
    rw [hvp]
    simp only [Option.getD_some, ssortP_map, List.map_map]
    have hcomp : (Prod.fst ∘ fun w => (w, c w p₀)) = fun w : ℕ => w := rfl
    rw [hcomp, List.map_id']
  · exact hvp

/-- C6: with the circuit built at parameters `p₀` and `update_var_params`
called with a vector `p` of the right length, the update falls back to a
full `build_circuit` exactly when the Pauli-word set of the new qubit
operator differs from the word set cached in `pauli_to_angles_mapping`;
otherwise only the existing gates' parameters are overwritten in place
(gate words and count unchanged), and the resulting variational gates are
exactly those a full `build_circuit` at `p` would produce. -/
theorem uccsd_update_fast_path (rng : ℕ → ℚ) (wlen : ℕ → ℕ) (ws : List ℕ)
    (c : ℕ → List ℚ → ℚ) (a₁ : UState) (p₀ p : List ℚ)
    (hnd : ws.Nodup) (hvp : a₁.var_params = some p₀)
    (hp : p.length = a₁.n_var_params) :
    (sameSet ((buildCircuitCore wlen ws c a₁).mapping.map Prod.fst)
        ((qubitOp ws c p).map Prod.fst) = true ↔
      (∀ x, x ∈ wordsOf ws c p₀ ↔ x ∈ wordsOf ws c p)) ∧
    (sameSet ((buildCircuitCore wlen ws c a₁).mapping.map Prod.fst)
        ((qubitOp ws c p).map Prod.fst) = false →
      update_var_params wlen ws c rng (buildCircuitCore wlen ws c a₁) (.vec p) =
        .ok (buildCircuitCore wlen ws c
          { buildCircuitCore wlen ws c a₁ with var_params := some p })) ∧
    (sameSet ((buildCircuitCore wlen ws c a₁).mapping.map Prod.fst)
        ((qubitOp ws c p).map Prod.fst) = true →
      update_var_params wlen ws c rng (buildCircuitCore wlen ws c a₁) (.vec p) =
        .ok { buildCircuitCore wlen ws c a₁ with
              var_params := some p,
              gates := (buildCircuitCore wlen ws c
                { a₁ with var_params := some p }).gates } ∧
      (buildCircuitCore wlen ws c { a₁ with var_params := some p }).gates.map
          Prod.fst =
        (buildCircuitCore wlen ws c a₁).gates.map Prod.fst) := by
  have hb := buildCircuitCore_fields wlen ws c a₁ p₀ hvp
  have hperm := ssortW_perm wlen (wordsOf ws c p₀)
  have hkeys1 : (buildCircuitCore wlen ws c a₁).mapping.map Prod.fst =
      ssortW wlen (wordsOf ws c p₀) := by
    rw [hb.2.1]
    exact mkMappingAux_keys _ 0
  have hkeys2 : (qubitOp ws c p).map Prod.fst = wordsOf ws c p := by
    unfold qubitOp
    rw [List.map_map]
    have hcomp : (Prod.fst ∘ fun w => (w, c w p)) = fun w : ℕ => w := rfl
    rw [hcomp, List.map_id']
  have hiff : sameSet ((buildCircuitCore wlen ws c a₁).mapping.map Prod.fst)
      ((qubitOp ws c p).map Prod.fst) = true ↔
      (∀ x, x ∈ wordsOf ws c p₀ ↔ x ∈ wordsOf ws c p) := by
    rw [hkeys1, hkeys2, sameSet_iff]
    constructor
    · intro hs x
      rw [← hperm.mem_iff]
      exact hs x
    · intro hs x
      rw [hperm.mem_iff]
      exact hs x
  have hn : (buildCircuitCore wlen ws c a₁).n_var_params = a₁.n_var_params :=
    hb.2.2.1
  have hset : set_var_params rng (buildCircuitCore wlen ws c a₁) (some (.vec p)) =
      .ok { buildCircuitCore wlen ws c a₁ with var_params := some p } := by
    simp only [set_var_params, Option.getD_some]
    rw [if_pos (by rw [hn]; exact hp)]
  refine ⟨hiff, ?_, ?_⟩
  · intro hcf
    have hcf' : ¬ (sameSet ((buildCircuitCore wlen ws c a₁).mapping.map Prod.fst)
        ((qubitOp ws c p).map Prod.fst) = true) := by
      rw [hcf]
      simp
    simp only [update_var_params, hset, Option.getD_some]
    rw [if_neg hcf']
    have hset2 : set_var_params rng
        ({ buildCircuitCore wlen ws c a₁ with var_params := some p } : UState)
        (some (.vec p)) =
        .ok { buildCircuitCore wlen ws c a₁ with var_params := some p } := by
      simp only [set_var_params, Option.getD_some]
      rw [if_pos (by rw [hn]; exact hp)]
    simp only [build_circuit, hset2]
  · intro hct
    have hwords : wordsOf ws c p = wordsOf ws c p₀ :=
      wordsOf_eq_of_sameMem ws c p p₀ (hiff.mp hct)
    have hnd0 : (wordsOf ws c p₀).Nodup := wordsOf_nodup ws c p₀ hnd
    have hndS : (ssortW wlen (wordsOf ws c p₀)).Nodup := hperm.nodup_iff.mpr hnd0
    have hq : qubitOp ws c p =
        (wordsOf ws c p₀).map (fun w => (w, c w p)) := by
      unfold qubitOp
      rw [hwords]
    have hgates2 : (buildCircuitCore wlen ws c
        { a₁ with var_params := some p }).gates =
        (ssortW wlen (wordsOf ws c p₀)).map (fun w => (w, pangle (c w p))) := by
      have hb2 := buildCircuitCore_fields wlen ws c
        { a₁ with var_params := some p } p rfl
      rw [hb2.1, hwords]
    have hfast : fastUpdate (buildCircuitCore wlen ws c a₁).gates
        (buildCircuitCore wlen ws c a₁).mapping (qubitOp ws c p) =
        (buildCircuitCore wlen ws c { a₁ with var_params := some p }).gates := by
      rw [hb.1, hb.2.1, hq, hgates2]
      rw [fastUpdate_eq (ssortW wlen (wordsOf ws c p₀)) hndS (fun w => c w p)
        (wordsOf ws c p₀) (fun v => pangle (c v p₀))]
      apply List.map_congr_left
      intro v hv
      have hvmem : v ∈ wordsOf ws c p₀ := hperm.subset hv
      simp [hvmem]
    constructor
    · simp only [update_var_params, hset, Option.getD_some]
      rw [if_pos hct]
      rw [hfast]
    · rw [hgates2, hb.1, List.map_map, List.map_map]
      rfl

/-- Witness for C6: a 2-word operator family with coefficients read off the
parameter vector: updating from `[1, 2]` to `[3, 4]` keeps the word set, so
the fast path rewrites the two gate parameters in place and reproduces a
full rebuild at `[3, 4]`. -/
theorem uccsd_update_fast_path_witness :
    update_var_params id [0, 1] (fun w q => q.getD w 0) (fun _ => 0)
        (buildCircuitCore id [0, 1] (fun w q => q.getD w 0)
          (UState.mk 2 (some [1, 2]) [] [])) (.vec [3, 4]) =
      .ok { buildCircuitCore id [0, 1] (fun w q => q.getD w 0)
              (UState.mk 2 (some [1, 2]) [] []) with
            var_params := some [3, 4],
            gates := (buildCircuitCore id [0, 1] (fun w q => q.getD w 0)
              { UState.mk 2 (some [1, 2]) [] [] with
                var_params := some [3, 4] }).gates } := by
  exact ((uccsd_update_fast_path (fun _ => 0) id [0, 1] (fun w q => q.getD w 0)
    (UState.mk 2 (some [1, 2]) [] []) [1, 2] [3, 4] (by decide) rfl rfl).2.2
    (by decide)).1

/-- C8: an explicit parameter vector whose length differs from
`n_var_params` makes `set_var_params` — and therefore `update_var_params`
and `build_circuit` called with that vector, both of which run it first —
raise `ValueError` immediately, with nothing truncated, padded or stored;
a vector of the correct length is accepted and stored unchanged. -/
theorem uccsd_param_length_check (rng : ℕ → ℚ) (wlen : ℕ → ℕ) (ws : List ℕ)
    (c : ℕ → List ℚ → ℚ) (a : UState) (v : List ℚ) :
    (v.length ≠ a.n_var_params →
      set_var_params rng a (some (.vec v)) = .error .valueError ∧
      update_var_params wlen ws c rng a (.vec v) = .error .valueError ∧
      build_circuit wlen ws c rng a (some (.vec v)) = .error .valueError) ∧
    (v.length = a.n_var_params →
      set_var_params rng a (some (.vec v)) = .ok { a with var_params := some v }) := by
  constructor
  · intro hne
    have hset : set_var_params rng a (some (.vec v)) = .error .valueError := by
      simp only [set_var_params, Option.getD_some]
      rw [if_neg hne]
    refine ⟨hset, ?_, ?_⟩
    · simp only [update_var_params, hset]
    · simp only [build_circuit, hset]
  · intro he
    simp only [set_var_params, Option.getD_some]
    rw [if_pos he]

/-- Witness for C8: an ansatz with 2 declared parameters rejects a length-1
vector with `ValueError` and stores a length-2 vector unchanged. -/
theorem uccsd_param_length_check_witness :
    set_var_params (fun _ => 0) (UState.mk 2 Option.none [] []) (some (.vec [1])) =
      .error .valueError ∧
    set_var_params (fun _ => 0) (UState.mk 2 Option.none [] []) (some (.vec [1, 2])) =
      .ok (UState.mk 2 (some [1, 2]) [] []) := by
  constructor
  · exact ((uccsd_param_length_check (fun _ => 0) id [] (fun _ _ => 0)
      (UState.mk 2 Option.none [] []) [1]).1 (by decide)).1
  · exact (uccsd_param_length_check (fun _ => 0) id [] (fun _ _ => 0)
      (UState.mk 2 Option.none [] []) [1, 2]).2 (by decide)

end Qsdk
